import Mathlib

/- Verification development for the OpenCL min-reduction kernel `pir`
   (src/pircl/kernel.c).

   Modelling conventions (shallow embedding):
   * Kernel float values are modelled as `WithTop ℚ`: the accumulator is
     seeded with `INFINITY` (`⊤`), and every other value that arises is the
     exact rational value of a 32-bit float.  The min-fold performs no
     rounding, so exact rationals faithfully represent the float computation.
   * `buffer` holds the raw 64-bit cells as `Nat`.  The implicit C conversion
     in `float element = buffer[global_index]` is the numeric
     integer-to-float conversion, i.e. round-to-nearest-even to a 24-bit
     significand; this is `u64ToF32` below.
   * The stores `scratch[local_index] = accumulator` and
     `output[get_group_id(0)] = scratch[0]` are modelled as transporting the
     float value; the declared `ulong` element type of `scratch` and `output`
     is part of the width mismatch the design notes flag.
   * `length` is a C `int`, modelled as `Int`; the loop guard
     `global_index < length` is an `Int` comparison, and `global_index`
     (starting at `get_global_id(0) ≥ 0`) is a `Nat`.
   * OpenCL guarantees `get_global_size(0) ≥ 1`; the loop guards below also
     test `0 < W` so that the model is total in the impossible `W = 0` case.
   * A 1-D launch with `nG` groups of `N` workers each is modelled by
     `get_global_size(0) = nG * N`, `get_global_id(0) = grp * N + l`,
     `get_local_id(0) = l`, `get_local_size(0) = N`, `get_group_id(0) = grp`.
   * The barrier-delimited SIMT rounds of the tree reduction are modelled as
     a simultaneous update of the scratch array: within one round every
     write lands at an index `< offset` while every cross-read is at
     `local_index + offset ≥ offset`, so the round is race-free and equal to
     the simultaneous update.
-/

/-- Values of the kernel's `float` computation: exact rationals plus `⊤`
for `INFINITY`. -/
abbrev Flt := WithTop ℚ

/-- The kernel's min idiom `(a < b) ? a : b` (lines 13 and 27 of
`kernel.c`). -/
def cmin (a b : Flt) : Flt := if a < b then a else b

/-- Round-to-nearest-even of a natural number to a 24-bit significand: the
value of the C conversion `(float)n` for an unsigned 64-bit `n` (default
IEEE-754 rounding).  The result is again an integer. -/
def rne24 (n : Nat) : Nat :=
  if n < 2 ^ 24 then n
  else
    let e := n.log2 - 23
    let q := n / 2 ^ e
    let r := n % 2 ^ e
    if r < 2 ^ (e - 1) then q * 2 ^ e
    else if 2 ^ (e - 1) < r then (q + 1) * 2 ^ e
    else (if q % 2 = 0 then q else q + 1) * 2 ^ e

/-- The value obtained by the implicit C conversion of a `ulong` buffer cell
to `float` (line 12 of `kernel.c`). -/
def u64ToF32 (n : Nat) : Flt := ((rne24 n : ℚ) : Flt)

/-- `float element = buffer[global_index]` (line 12). -/
def readCell (buffer : List Nat) (i : Nat) : Flt := u64ToF32 (buffer.getD i 0)

/-- Trace of the indices visited by the grid-stride loop (lines 11-15) when
started at `global_index = i` with `get_global_size(0) = W`. -/
def visitedIdx (len : Int) (W i : Nat) : List Nat :=
  if h : (i : Int) < len ∧ 0 < W then i :: visitedIdx len W (i + W) else []
termination_by (len - i).toNat
decreasing_by omega

/-- The grid-stride scan loop (lines 11-15): fold the visited elements into
the running accumulator. -/
def scanFrom (buffer : List Nat) (len : Int) (W i : Nat) (acc : Flt) : Flt :=
  if h : (i : Int) < len ∧ 0 < W then
    scanFrom buffer len W (i + W) (cmin acc (readCell buffer i))
  else acc
termination_by (len - i).toNat
decreasing_by omega

/-- Phase-1 result of the worker with `get_global_id(0) = g`: the scan loop
started from `g` with accumulator `INFINITY` (lines 8-15). -/
def workerAcc (buffer : List Nat) (len : Int) (W g : Nat) : Flt :=
  scanFrom buffer len W g ⊤

/-- One barrier-delimited round of the tree reduction (lines 24-29), for a
generic fold operation `op` with default `d`: every index `i < o` is
replaced by `op s[i] s[i + o]`, every other index is unchanged. -/
def gRound {α : Type} (op : α → α → α) (d : α) (s : List α) (o : Nat) : List α :=
  (List.range s.length).map fun i =>
    if i < o then op (s.getD i d) (s.getD (i + o) d) else s.getD i d

/-- The tree-reduction loop (lines 21-30) for a generic fold operation:
starting from offset `o`, halve until the offset reaches 0. -/
def gLoop {α : Type} (op : α → α → α) (d : α) (s : List α) (o : Nat) : List α :=
  if o = 0 then s else gLoop op d (gRound op d s o) (o / 2)
termination_by o
decreasing_by omega

/-- One round of the kernel's tree reduction (lines 24-29). -/
def reduceRound (s : List Flt) (o : Nat) : List Flt := gRound cmin ⊤ s o

/-- The kernel's tree-reduction loop (lines 21-30). -/
def reduceLoop (s : List Flt) (o : Nat) : List Flt := gLoop cmin ⊤ s o

/-- The successive values the loop variable `offset` takes inside the loop
body (line 21-23): `o, o/2, o/4, …` down to (and excluding) 0. -/
def offsets (o : Nat) : List Nat :=
  if o = 0 then [] else o :: offsets (o / 2)
termination_by o
decreasing_by omega

/-- Contents of the group-local `scratch` array after line 19 and the first
barrier: slot `l` holds the accumulator of the worker with local index `l`
(global index `grp * N + l`). -/
def groupScratch (buffer : List Nat) (len : Int) (nG N grp : Nat) : List Flt :=
  (List.range N).map fun l => workerAcc buffer len (nG * N) (grp * N + l)

/-- The value written to `output[get_group_id(0)]` by the worker with local
index 0 (lines 31-33): `scratch[0]` after the tree reduction, whose first
offset is `get_local_size(0) / 2`. -/
def groupOutput (buffer : List Nat) (len : Int) (nG N grp : Nat) : Flt :=
  (reduceLoop (groupScratch buffer len nG N grp) (N / 2)).headD ⊤

/-- The whole kernel: the `output` array produced by a launch with `nG`
work-groups of `N` workers each.  The `mask` argument is the kernel's
`__global char* mask` parameter, which the kernel body never reads. -/
def pir (buffer mask : List Nat) (len : Int) (nG N : Nat) : List Flt :=
  (List.range nG).map fun grp => groupOutput buffer len nG N grp

/-- Minimum of a list of kernel values, seeded at `INFINITY`. -/
def listMin (l : List Flt) : Flt := l.foldr min ⊤

/-- The true minimum of the input vector as the kernel interprets it: the
minimum over the float values of all cells. -/
def bufMin (buffer : List Nat) : Flt := listMin (buffer.map u64ToF32)

/-- The set of scratch slots whose phase-1 value is folded into `scratch[0]`
by the tree reduction for group size `N`: run the same reduction over sets
of indices with union in place of min. -/
def covered (N : Nat) : Finset Nat :=
  (gLoop (· ∪ ·) ∅ ((List.range N).map fun i => ({i} : Finset Nat)) (N / 2)).getD 0 ∅

/-- Modelled from the spec's words (§9, §6): the bit-level reinterpretation
of a float-width (32-bit) bit pattern as an IEEE-754 binary32 value, taken
from the low 32 bits of the 64-bit cell; `none` for NaN and negative
infinity, which `Flt` cannot represent.  This is the semantics the spec
attributes to the read of a buffer cell, to be compared with the code's
`u64ToF32`. -/
def reinterpF32 (b : Nat) : Option Flt :=
  let s : Nat := b / 2 ^ 31 % 2
  let e : Nat := b / 2 ^ 23 % 2 ^ 8
  let m : Nat := b % 2 ^ 23
  if e = 255 then (if m = 0 ∧ s = 0 then some ⊤ else none)
  else
    let mag : ℚ :=
      if e = 0 then (m : ℚ) * (2 : ℚ) ^ (-(149 : Int))
      else ((2 ^ 23 + m : Nat) : ℚ) * (2 : ℚ) ^ ((e : Int) - 150)
    some (((if s = 0 then mag else -mag) : ℚ) : Flt)

set_option maxRecDepth 1000

/-! ### Basic properties of `cmin` and `listMin` -/

theorem cmin_eq_min : cmin = fun a b : Flt => min a b := by
  funext a b
  unfold cmin
  rcases lt_or_le a b with h | h
  · rw [if_pos h, min_eq_left h.le]
  · rw [if_neg (not_lt.mpr h), min_eq_right h]

theorem listMin_nil : listMin [] = ⊤ := rfl

theorem listMin_cons (a : Flt) (l : List Flt) :
    listMin (a :: l) = min a (listMin l) := rfl

theorem listMin_le_of_mem {l : List Flt} {a : Flt} (h : a ∈ l) :
    listMin l ≤ a := by
  induction l with
  | nil => cases h
  | cons x t ih =>
    rcases List.mem_cons.mp h with rfl | h
    · exact min_le_left _ _
    · exact le_trans (min_le_right _ _) (ih h)

theorem le_listMin {l : List Flt} {c : Flt} (h : ∀ a ∈ l, c ≤ a) :
    c ≤ listMin l := by
  induction l with
  | nil => exact le_top
  | cons x t ih =>
    exact le_min (h x (List.mem_cons_self x t))
      (ih fun a ha => h a (List.mem_cons_of_mem x ha))

theorem foldl_min_eq (l : List Flt) : ∀ a : Flt, List.foldl min a l = min a (listMin l) := by
  induction l with
  | nil => intro a; simp [listMin]
  | cons x t ih =>
    intro a
    rw [List.foldl_cons, ih, listMin_cons, min_assoc]

theorem foldr_min_init (l : List Flt) (c : Flt) :
    List.foldr min c l = min (listMin l) c := by
  induction l with
  | nil => simp [listMin]
  | cons x t ih => rw [List.foldr_cons, ih, listMin_cons, min_assoc]

theorem listMin_append (l₁ l₂ : List Flt) :
    listMin (l₁ ++ l₂) = min (listMin l₁) (listMin l₂) := by
  show List.foldr min ⊤ (l₁ ++ l₂) = _
  rw [List.foldr_append, foldr_min_init]
  rfl

theorem listMin_zipWith_min :
    ∀ (l₁ l₂ : List Flt), l₁.length = l₂.length →
      listMin (List.zipWith min l₁ l₂) = min (listMin l₁) (listMin l₂) := by
  intro l₁
  induction l₁ with
  | nil =>
    intro l₂ h
    have : l₂ = [] := List.eq_nil_of_length_eq_zero h.symm
    subst this
    simp [listMin]
  | cons x t ih =>
    intro l₂ h
    cases l₂ with
    | nil => simp at h
    | cons y u =>
      simp only [List.zipWith_cons_cons, listMin_cons]
      rw [ih u (by simpa using h), min_min_min_comm]

/-! ### Generic round and loop: lengths and entries -/

theorem gRound_length {α : Type} (op : α → α → α) (d : α) (s : List α) (o : Nat) :
    (gRound op d s o).length = s.length := by
  simp [gRound]

theorem gRound_getElem {α : Type} (op : α → α → α) (d : α) (s : List α) (o i : Nat)
    (h : i < s.length) (h2 : i < (gRound op d s o).length) :
    (gRound op d s o)[i] =
      if i < o then op (s.getD i d) (s.getD (i + o) d) else s.getD i d := by
  simp [gRound]

theorem gRound_getD {α : Type} (op : α → α → α) (d : α) (s : List α) (o i : Nat) :
    (gRound op d s o).getD i d =
      if i < s.length then
        (if i < o then op (s.getD i d) (s.getD (i + o) d) else s.getD i d)
      else d := by
  by_cases h : i < s.length
  · rw [if_pos h, List.getD_eq_getElem _ _ (by rw [gRound_length]; exact h),
      gRound_getElem op d s o i h (by rw [gRound_length]; exact h)]
  · rw [if_neg h, List.getD_eq_default _ _ (by rw [gRound_length]; omega)]

theorem gLoop_length {α : Type} (op : α → α → α) (d : α) :
    ∀ (o : Nat) (s : List α), (gLoop op d s o).length = s.length := by
  intro o
  induction o using Nat.strong_induction_on with
  | _ o ih =>
    intro s
    by_cases ho : o = 0
    · subst ho; rw [gLoop]; simp
    · rw [gLoop, if_neg ho, ih (o / 2) (by omega), gRound_length]

theorem gLoop_eq_foldl {α : Type} (op : α → α → α) (d : α) :
    ∀ (o : Nat) (s : List α), gLoop op d s o = (offsets o).foldl (gRound op d) s := by
  intro o
  induction o using Nat.strong_induction_on with
  | _ o ih =>
    intro s
    by_cases ho : o = 0
    · subst ho; rw [gLoop, offsets]; simp
    · rw [gLoop, if_neg ho, offsets, if_neg ho, List.foldl_cons, ih (o / 2) (by omega)]

/-! ### The grid-stride scan -/

theorem mem_visitedIdx (len : Int) (W : Nat) (hW : 0 < W) :
    ∀ i j : Nat, j ∈ visitedIdx len W i ↔ ∃ t : Nat, j = i + t * W ∧ (j : Int) < len := by
  intro i
  induction i using visitedIdx.induct len W with
  | case1 i h ih =>
    intro j
    rw [visitedIdx, dif_pos h, List.mem_cons, ih]
    constructor
    · rintro (rfl | ⟨t, rfl, hj⟩)
      · exact ⟨0, by ring, h.1⟩
      · exact ⟨t + 1, by ring, hj⟩
    · rintro ⟨t, rfl, hj⟩
      cases t with
      | zero => left; ring
      | succ t => right; exact ⟨t, by ring, hj⟩
  | case2 i h =>
    intro j
    rw [visitedIdx, dif_neg h]
    simp only [List.not_mem_nil, false_iff, not_exists]
    rintro t ⟨rfl, hj⟩
    have hil : ¬ (i : Int) < len := fun hi => h ⟨hi, hW⟩
    have : (i : Int) ≤ ((i + t * W : Nat) : Int) := by
      exact_mod_cast Nat.le_add_right i (t * W)
    omega

theorem visitedIdx_lt_len (len : Int) (W : Nat) :
    ∀ i j : Nat, j ∈ visitedIdx len W i → 0 ≤ (j : Int) ∧ (j : Int) < len := by
  intro i
  induction i using visitedIdx.induct len W with
  | case1 i h ih =>
    intro j hj
    rw [visitedIdx, dif_pos h, List.mem_cons] at hj
    rcases hj with rfl | hj
    · exact ⟨Int.ofNat_nonneg j, h.1⟩
    · exact ih j hj
  | case2 i h =>
    intro j hj
    rw [visitedIdx, dif_neg h] at hj
    cases hj

theorem scanFrom_eq_foldl (buffer : List Nat) (len : Int) (W : Nat) :
    ∀ (i : Nat) (acc : Flt),
      scanFrom buffer len W i acc =
        List.foldl min acc ((visitedIdx len W i).map (readCell buffer)) := by
  intro i
  induction i using visitedIdx.induct len W with
  | case1 i h ih =>
    intro acc
    rw [scanFrom, dif_pos h, visitedIdx, dif_pos h, List.map_cons, List.foldl_cons,
      ih, cmin_eq_min]
  | case2 i h =>
    intro acc
    rw [scanFrom, dif_neg h, visitedIdx, dif_neg h, List.map_nil, List.foldl_nil]

theorem workerAcc_eq (buffer : List Nat) (len : Int) (W g : Nat) :
    workerAcc buffer len W g = listMin ((visitedIdx len W g).map (readCell buffer)) := by
  rw [workerAcc, scanFrom_eq_foldl, foldl_min_eq, min_eq_right le_top]

theorem visitedIdx_nonpos (len : Int) (W i : Nat) (h : len ≤ 0) :
    visitedIdx len W i = [] := by
  rw [visitedIdx, dif_neg]
  rintro ⟨hi, -⟩
  omega

theorem scanFrom_nonpos (buffer : List Nat) (len : Int) (W i : Nat) (acc : Flt)
    (h : len ≤ 0) : scanFrom buffer len W i acc = acc := by
  rw [scanFrom, dif_neg]
  rintro ⟨hi, -⟩
  omega

/-! ### The tree reduction -/

theorem gLoop_zero {α : Type} (op : α → α → α) (d : α) (s : List α) :
    gLoop op d s 0 = s := by
  rw [gLoop]
  simp

theorem gLoop_succ {α : Type} (op : α → α → α) (d : α) (s : List α) (o : Nat) (ho : o ≠ 0) :
    gLoop op d s o = gLoop op d (gRound op d s o) (o / 2) := by
  rw [gLoop, if_neg ho]

theorem List_ext_getD {α : Type} (d : α) (l₁ l₂ : List α) (hlen : l₁.length = l₂.length)
    (h : ∀ i, i < l₁.length → l₁.getD i d = l₂.getD i d) : l₁ = l₂ := by
  apply List.ext_getElem hlen
  intro i h1 h2
  have := h i h1
  rwa [List.getD_eq_getElem _ _ h1, List.getD_eq_getElem _ _ h2] at this

theorem getD_drop {α : Type} (s : List α) (d : α) (n i : Nat) :
    (s.drop n).getD i d = s.getD (n + i) d := by
  by_cases h : n + i < s.length
  · rw [List.getD_eq_getElem _ _ (by rw [List.length_drop]; omega),
      List.getElem_drop, List.getD_eq_getElem _ _ h]
  · rw [List.getD_eq_default _ _ (by rw [List.length_drop]; omega),
      List.getD_eq_default _ _ (by omega)]

theorem getD_take {α : Type} (s : List α) (d : α) (n i : Nat) (h : i < n) :
    (s.take n).getD i d = s.getD i d := by
  by_cases hl : i < s.length
  · rw [List.getD_eq_getElem _ _ (by rw [List.length_take]; omega), List.getElem_take,
      List.getD_eq_getElem _ _ hl]
  · rw [List.getD_eq_default _ _ (by rw [List.length_take]; omega),
      List.getD_eq_default _ _ (by omega)]

theorem getD_zipWith {α : Type} (op : α → α → α) (a b : List α) (d : α) (i : Nat)
    (ha : i < a.length) (hb : i < b.length) :
    (List.zipWith op a b).getD i d = op (a.getD i d) (b.getD i d) := by
  rw [List.getD_eq_getElem _ _ (by rw [List.length_zipWith]; omega), List.getElem_zipWith,
    List.getD_eq_getElem _ _ ha, List.getD_eq_getElem _ _ hb]

theorem reduceLoop_eq_gLoop_min (s : List Flt) (o : Nat) :
    reduceLoop s o = gLoop min ⊤ s o := by
  rw [reduceLoop, cmin_eq_min]

theorem gRound_append {α : Type} (op : α → α → α) (d : α) (s₁ s₂ : List α) (o : Nat)
    (ho : 1 ≤ o) (h2 : 2 * o ≤ s₁.length) :
    gRound op d (s₁ ++ s₂) o = gRound op d s₁ o ++ s₂ := by
  apply List_ext_getD d
  · rw [gRound_length, List.length_append, List.length_append, gRound_length]
  · intro i hi
    rw [gRound_length, List.length_append] at hi
    by_cases hL : i < s₁.length
    · rw [List.getD_append (gRound op d s₁ o) s₂ d i (by rw [gRound_length]; exact hL),
        gRound_getD, gRound_getD,
        if_pos (show i < (s₁ ++ s₂).length by rw [List.length_append]; omega),
        if_pos hL]
      by_cases hio : i < o
      · rw [if_pos hio, if_pos hio, List.getD_append s₁ s₂ d i hL,
          List.getD_append s₁ s₂ d (i + o) (by omega)]
      · rw [if_neg hio, if_neg hio, List.getD_append s₁ s₂ d i hL]
    · push_neg at hL
      rw [List.getD_append_right (gRound op d s₁ o) s₂ d i (by rw [gRound_length]; exact hL),
        gRound_length, gRound_getD,
        if_pos (show i < (s₁ ++ s₂).length by rw [List.length_append]; omega),
        if_neg (show ¬ i < o by omega),
        List.getD_append_right s₁ s₂ d i hL]

theorem gLoop_append {α : Type} (op : α → α → α) (d : α) :
    ∀ (o : Nat) (s₁ s₂ : List α), 2 * o ≤ s₁.length →
      gLoop op d (s₁ ++ s₂) o = gLoop op d s₁ o ++ s₂ := by
  intro o
  induction o using Nat.strong_induction_on with
  | _ o ih =>
    intro s₁ s₂ h2
    by_cases ho : o = 0
    · subst ho
      rw [gLoop_zero, gLoop_zero]
    · rw [gLoop_succ op d (s₁ ++ s₂) o ho, gLoop_succ op d s₁ o ho,
        gRound_append op d s₁ s₂ o (by omega) h2]
      exact ih (o / 2) (by omega) _ _ (by rw [gRound_length]; omega)

theorem gRound_double {α : Type} (op : α → α → α) (d : α) (s : List α) (o : Nat)
    (h : s.length = 2 * o) :
    gRound op d s o = List.zipWith op (s.take o) (s.drop o) ++ s.drop o := by
  have hzip : (List.zipWith op (s.take o) (s.drop o)).length = o := by
    rw [List.length_zipWith, List.length_take, List.length_drop]
    omega
  apply List_ext_getD d
  · rw [gRound_length, List.length_append, hzip, List.length_drop]
    omega
  · intro i hi
    rw [gRound_length] at hi
    rw [gRound_getD, if_pos hi]
    by_cases hio : i < o
    · rw [if_pos hio,
        List.getD_append (List.zipWith op (s.take o) (s.drop o)) (s.drop o) d i
          (by rw [hzip]; exact hio),
        getD_zipWith op _ _ d i (by rw [List.length_take]; omega)
          (by rw [List.length_drop]; omega),
        getD_take s d o i hio, getD_drop s d o i, Nat.add_comm o i]
    · rw [if_neg hio,
        List.getD_append_right (List.zipWith op (s.take o) (s.drop o)) (s.drop o) d i
          (by rw [hzip]; omega),
        hzip, getD_drop s d o (i - o)]
      have hoi : o + (i - o) = i := by omega
      rw [hoi]

theorem headD_append {α : Type} (l₁ l₂ : List α) (d : α) (h : 0 < l₁.length) :
    (l₁ ++ l₂).headD d = l₁.headD d := by
  cases l₁ with
  | nil => simp at h
  | cons x t => rfl

theorem gLoop_headD_pow2 :
    ∀ (k : Nat) (s : List Flt), s.length = 2 ^ k →
      (gLoop min ⊤ s (2 ^ k / 2)).headD ⊤ = listMin s := by
  intro k
  induction k with
  | zero =>
    intro s hs
    rcases List.length_eq_one.mp hs with ⟨a, rfl⟩
    have h0 : 2 ^ 0 / 2 = 0 := rfl
    rw [h0, gLoop_zero]
    show a = listMin [a]
    rw [listMin_cons, listMin_nil, min_eq_left le_top]
  | succ k ih =>
    intro s hs
    have hpow : 2 ^ (k + 1) / 2 = 2 ^ k := by
      rw [pow_succ]
      omega
    have hk0 : (0:Nat) < 2 ^ k := by positivity
    rw [hpow, gLoop_succ min ⊤ s (2 ^ k) hk0.ne']
    have hlen2 : s.length = 2 * 2 ^ k := by rw [hs, pow_succ]; ring
    rw [gRound_double min ⊤ s (2 ^ k) hlen2]
    have htake : (s.take (2 ^ k)).length = 2 ^ k := by rw [List.length_take]; omega
    have hdrop : (s.drop (2 ^ k)).length = 2 ^ k := by rw [List.length_drop]; omega
    have hzip : (List.zipWith min (s.take (2 ^ k)) (s.drop (2 ^ k))).length = 2 ^ k := by
      rw [List.length_zipWith]
      omega
    rw [gLoop_append min ⊤ (2 ^ k / 2) _ _ (by rw [hzip]; omega)]
    rw [headD_append _ _ _ (by rw [gLoop_length, hzip]; exact hk0)]
    rw [ih _ hzip, listMin_zipWith_min _ _ (by rw [htake, hdrop])]
    conv_rhs => rw [← List.take_append_drop (2 ^ k) s]
    rw [listMin_append]

theorem reduceLoop_headD_pow2 (k : Nat) (s : List Flt) (hs : s.length = 2 ^ k) :
    (reduceLoop s (2 ^ k / 2)).headD ⊤ = listMin s := by
  rw [reduceLoop_eq_gLoop_min]
  exact gLoop_headD_pow2 k s hs

/-! ### The offset sequence -/

theorem offsets_zero : offsets 0 = [] := by
  rw [offsets]
  simp

theorem offsets_succ (o : Nat) (ho : o ≠ 0) : offsets o = o :: offsets (o / 2) := by
  rw [offsets, if_neg ho]

theorem mem_offsets_bounds :
    ∀ m o : Nat, o ∈ offsets m → 1 ≤ o ∧ o ≤ m := by
  intro m
  induction m using Nat.strong_induction_on with
  | _ m ih =>
    intro o hmem
    by_cases hm : m = 0
    · subst hm; rw [offsets_zero] at hmem; cases hmem
    · rw [offsets_succ m hm, List.mem_cons] at hmem
      rcases hmem with rfl | hmem
      · omega
      · have := ih (m / 2) (by omega) o hmem
        omega

theorem offsets_length_log :
    ∀ m : Nat, 1 ≤ m → (offsets m).length = Nat.log 2 m + 1 := by
  intro m
  induction m using Nat.strong_induction_on with
  | _ m ih =>
    intro hm
    rw [offsets_succ m (by omega), List.length_cons]
    by_cases h1 : m = 1
    · subst h1
      norm_num [offsets_zero, Nat.log_one_right]
    · have h2 : 2 ≤ m := by omega
      rw [ih (m / 2) (by omega) (by omega)]
      have hlog : Nat.log 2 (m / 2) = Nat.log 2 m - 1 := Nat.log_div_base 2 m
      have hpos : 1 ≤ Nat.log 2 m := Nat.log_pos one_lt_two h2
      omega

/-- Round count of the reduction loop for group size `N`: number of offsets
traversed, starting from `N / 2`. -/
theorem rounds_eq_log (N : Nat) (hN : 1 ≤ N) :
    (offsets (N / 2)).length = Nat.log 2 N := by
  by_cases h1 : N = 1
  · subst h1
    rw [show (1:Nat) / 2 = 0 from rfl, offsets_zero]
    simp [Nat.log_one_right]
  · have h2 : 2 ≤ N := by omega
    rw [offsets_length_log (N / 2) (by omega)]
    have hlog : Nat.log 2 (N / 2) = Nat.log 2 N - 1 := Nat.log_div_base 2 N
    have hpos : 1 ≤ Nat.log 2 N := Nat.log_pos one_lt_two h2
    omega

/-! ### The all-infinity case -/

theorem getD_top_of_all_top {s : List Flt} (h : ∀ a ∈ s, a = ⊤) (i : Nat) :
    s.getD i ⊤ = ⊤ := by
  by_cases hl : i < s.length
  · rw [List.getD_eq_getElem _ _ hl]
    exact h _ (List.getElem_mem hl)
  · rw [List.getD_eq_default _ _ (by omega)]

theorem gRound_top (s : List Flt) (o : Nat) (h : ∀ a ∈ s, a = ⊤) :
    gRound min ⊤ s o = s := by
  apply List_ext_getD ⊤ _ _ (gRound_length min ⊤ s o)
  intro i hi
  rw [gRound_length] at hi
  rw [gRound_getD, if_pos hi, getD_top_of_all_top h i, getD_top_of_all_top h (i + o)]
  simp

theorem gLoop_top :
    ∀ (o : Nat) (s : List Flt), (∀ a ∈ s, a = ⊤) → gLoop min ⊤ s o = s := by
  intro o
  induction o using Nat.strong_induction_on with
  | _ o ih =>
    intro s h
    by_cases ho : o = 0
    · subst ho; exact gLoop_zero min ⊤ s
    · rw [gLoop_succ min ⊤ s o ho, gRound_top s o h]
      exact ih (o / 2) (by omega) s h

/-! ### The covered-slot homomorphism -/

theorem gLoop_hom (val : Nat → Flt) :
    ∀ (o : Nat) (sm : List Flt) (ss : List (Finset Nat)),
      sm.length = ss.length →
      (∀ i, sm.getD i ⊤ = Finset.inf (ss.getD i ∅) val) →
      (gLoop min ⊤ sm o).length = (gLoop (· ∪ ·) ∅ ss o).length ∧
        ∀ i, (gLoop min ⊤ sm o).getD i ⊤ =
          Finset.inf ((gLoop (· ∪ ·) ∅ ss o).getD i ∅) val := by
  intro o
  induction o using Nat.strong_induction_on with
  | _ o ih =>
    intro sm ss hlen hinv
    by_cases ho : o = 0
    · subst ho
      rw [gLoop_zero, gLoop_zero]
      exact ⟨hlen, hinv⟩
    · rw [gLoop_succ min ⊤ sm o ho, gLoop_succ (· ∪ ·) ∅ ss o ho]
      apply ih (o / 2) (by omega)
      · rw [gRound_length, gRound_length, hlen]
      · intro i
        rw [gRound_getD, gRound_getD, hlen]
        by_cases h1 : i < ss.length
        · rw [if_pos h1, if_pos h1]
          by_cases h2 : i < o
          · rw [if_pos h2, if_pos h2, hinv i, hinv (i + o), Finset.inf_union, inf_eq_min]
          · rw [if_neg h2, if_neg h2, hinv i]
        · rw [if_neg h1, if_neg h1]
          simp

/-! ### Assembling the kernel -/

theorem groupScratch_length (buffer : List Nat) (len : Int) (nG N grp : Nat) :
    (groupScratch buffer len nG N grp).length = N := by
  rw [groupScratch, List.length_map, List.length_range]

theorem groupScratch_getD (buffer : List Nat) (len : Int) (nG N grp l : Nat) (hl : l < N) :
    (groupScratch buffer len nG N grp).getD l ⊤ =
      workerAcc buffer len (nG * N) (grp * N + l) := by
  rw [groupScratch,
    List.getD_eq_getElem _ _ (by rw [List.length_map, List.length_range]; exact hl),
    List.getElem_map, List.getElem_range]

theorem pir_getD (buffer mask : List Nat) (len : Int) (nG N grp : Nat) (hg : grp < nG) :
    (pir buffer mask len nG N).getD grp ⊤ = groupOutput buffer len nG N grp := by
  rw [pir,
    List.getD_eq_getElem _ _ (by rw [List.length_map, List.length_range]; exact hg),
    List.getElem_map, List.getElem_range]

theorem groupOutput_pow2 (buffer : List Nat) (len : Int) (nG N k grp : Nat)
    (hN : N = 2 ^ k) :
    groupOutput buffer len nG N grp = listMin (groupScratch buffer len nG N grp) := by
  subst hN
  rw [groupOutput]
  exact reduceLoop_headD_pow2 k _ (groupScratch_length buffer len nG (2 ^ k) grp)

theorem headD_eq_getD_zero (l : List Flt) : l.headD ⊤ = l.getD 0 ⊤ := by
  cases l <;> rfl

theorem pir_nonpos (buffer mask : List Nat) (len : Int) (nG N : Nat) (h : len ≤ 0) :
    pir buffer mask len nG N = List.replicate nG ⊤ := by
  have hout : ∀ grp, groupOutput buffer len nG N grp = ⊤ := by
    intro grp
    have hsc : ∀ a ∈ groupScratch buffer len nG N grp, a = ⊤ := by
      intro a ha
      rcases List.mem_map.mp ha with ⟨l, -, rfl⟩
      rw [workerAcc, scanFrom_nonpos _ _ _ _ _ h]
    rw [groupOutput, reduceLoop_eq_gLoop_min, gLoop_top _ _ hsc]
    rw [headD_eq_getD_zero]
    exact getD_top_of_all_top hsc 0
  apply List.eq_replicate_iff.mpr
  constructor
  · rw [pir, List.length_map, List.length_range]
  · intro b hb
    rcases List.mem_map.mp hb with ⟨grp, -, rfl⟩
    exact hout grp

theorem reduceLoop_headD_covered (N : Nat) (s : List Flt) (hlen : s.length = N) :
    (reduceLoop s (N / 2)).headD ⊤ =
      Finset.inf (covered N) (fun j => s.getD j ⊤) := by
  have base_len : s.length = ((List.range N).map fun i => ({i} : Finset Nat)).length := by
    rw [List.length_map, List.length_range, hlen]
  have base_inv : ∀ i, s.getD i ⊤ =
      Finset.inf (((List.range N).map fun i => ({i} : Finset Nat)).getD i ∅)
        (fun j => s.getD j ⊤) := by
    intro i
    by_cases hi : i < N
    · rw [List.getD_eq_getElem ((List.range N).map fun i => ({i} : Finset Nat)) ∅
          (by rw [List.length_map, List.length_range]; exact hi),
        List.getElem_map, List.getElem_range, Finset.inf_singleton]
    · rw [List.getD_eq_default ((List.range N).map fun i => ({i} : Finset Nat)) ∅
          (by rw [List.length_map, List.length_range]; omega),
        Finset.inf_empty, List.getD_eq_default s ⊤ (by rw [hlen]; omega)]
  have h := gLoop_hom (fun j => s.getD j ⊤) (N / 2) s _ base_len base_inv
  rw [reduceLoop_eq_gLoop_min, headD_eq_getD_zero, h.2 0]
  rfl

/-- Core correctness: for a power-of-two group size and at least one group,
the minimum over the emitted outputs is the minimum of the interpreted
input vector. -/
theorem pir_listMin_pow2 (buffer mask : List Nat) (nG N k : Nat)
    (hN : N = 2 ^ k) (hG : 1 ≤ nG) :
    listMin (pir buffer mask (buffer.length : Int) nG N) = bufMin buffer := by
  have hNpos : 0 < N := by rw [hN]; positivity
  have hW : 0 < nG * N := by positivity
  set len : Int := (buffer.length : Int) with hlen
  apply le_antisymm
  · rw [bufMin]
    apply le_listMin
    intro a ha
    rcases List.mem_map.mp ha with ⟨c, hc, rfl⟩
    rcases List.mem_iff_getElem.mp hc with ⟨j, hj, rfl⟩
    have hgW : j % (nG * N) < nG * N := Nat.mod_lt j hW
    have hgrp : j % (nG * N) / N < nG := (Nat.div_lt_iff_lt_mul hNpos).mpr hgW
    have hloc : j % (nG * N) % N < N := Nat.mod_lt _ hNpos
    have hid : (j % (nG * N) / N) * N + j % (nG * N) % N = j % (nG * N) := by
      rw [mul_comm]
      exact Nat.div_add_mod _ N
    have hmem_out : groupOutput buffer len nG N (j % (nG * N) / N) ∈
        pir buffer mask len nG N := by
      rw [pir]
      exact List.mem_map_of_mem _ (List.mem_range.mpr hgrp)
    refine le_trans (listMin_le_of_mem hmem_out) ?_
    rw [groupOutput_pow2 buffer len nG N k _ hN]
    have hacc_mem : workerAcc buffer len (nG * N)
        ((j % (nG * N) / N) * N + j % (nG * N) % N) ∈
        groupScratch buffer len nG N (j % (nG * N) / N) := by
      rw [groupScratch]
      exact List.mem_map_of_mem _ (List.mem_range.mpr hloc)
    rw [hid] at hacc_mem
    refine le_trans (listMin_le_of_mem hacc_mem) ?_
    rw [workerAcc_eq]
    have hjvis : j ∈ visitedIdx len (nG * N) (j % (nG * N)) := by
      rw [mem_visitedIdx len (nG * N) hW]
      refine ⟨j / (nG * N), ?_, ?_⟩
      · rw [mul_comm (j / (nG * N)) (nG * N)]
        exact (Nat.mod_add_div j (nG * N)).symm
      · rw [hlen]
        exact_mod_cast hj
    refine le_trans (listMin_le_of_mem (List.mem_map_of_mem _ hjvis)) ?_
    rw [readCell, List.getD_eq_getElem buffer 0 hj]
  · apply le_listMin
    intro a ha
    rw [pir] at ha
    rcases List.mem_map.mp ha with ⟨grp, hgrp, rfl⟩
    rw [groupOutput_pow2 buffer len nG N k grp hN]
    apply le_listMin
    intro b hb
    rw [groupScratch] at hb
    rcases List.mem_map.mp hb with ⟨l, hl, rfl⟩
    rw [workerAcc_eq]
    apply le_listMin
    intro e he
    rcases List.mem_map.mp he with ⟨j, hjvis, rfl⟩
    have hjlen : (j : Int) < len := (visitedIdx_lt_len len (nG * N) _ j hjvis).2
    have hjb : j < buffer.length := by
      rw [hlen] at hjlen
      exact_mod_cast hjlen
    rw [readCell, List.getD_eq_getElem buffer 0 hjb, bufMin]
    exact listMin_le_of_mem (List.mem_map_of_mem _ (List.getElem_mem hjb))

/-! ### Claim theorems -/

/-- C3: for every total worker count `W ≥ 1` and input length `L`, worker
`g` visits exactly the indices `g, g + W, g + 2W, …` that are below `L`,
and every element index in `[0, L)` is visited by exactly one worker in
`[0, W)`, so the visited sets partition `[0, L)`. -/
theorem c3_stride_partition (W L : Nat) (hW : 0 < W) :
    (∀ g j : Nat, j ∈ visitedIdx (L : Int) W g ↔
      ∃ t : Nat, j = g + t * W ∧ j < L) ∧
    (∀ j : Nat, j < L → ∃! g : Nat, g < W ∧ j ∈ visitedIdx (L : Int) W g) := by
  constructor
  · intro g j
    rw [mem_visitedIdx (L : Int) W hW]
    constructor
    · rintro ⟨t, rfl, hj⟩
      exact ⟨t, rfl, by exact_mod_cast hj⟩
    · rintro ⟨t, rfl, hj⟩
      exact ⟨t, rfl, by exact_mod_cast hj⟩
  · intro j hj
    refine ⟨j % W, ⟨Nat.mod_lt j hW, ?_⟩, ?_⟩
    · rw [mem_visitedIdx _ _ hW]
      refine ⟨j / W, ?_, by exact_mod_cast hj⟩
      rw [mul_comm]
      exact (Nat.mod_add_div j W).symm
    · rintro g ⟨hgW, hgvis⟩
      rw [mem_visitedIdx _ _ hW] at hgvis
      rcases hgvis with ⟨t, heq, -⟩
      rw [heq, Nat.add_mul_mod_self_right, Nat.mod_eq_of_lt hgW]

/-- C3 witness: concrete instance `W = 2`, `L = 5`. -/
theorem c3_witness :
    (0:Nat) < 2 ∧
    ((∀ g j : Nat, j ∈ visitedIdx ((5:Nat) : Int) 2 g ↔
        ∃ t : Nat, j = g + t * 2 ∧ j < 5) ∧
      (∀ j : Nat, j < 5 → ∃! g : Nat, g < 2 ∧ j ∈ visitedIdx ((5:Nat) : Int) 2 g)) :=
  ⟨by decide, c3_stride_partition 2 5 (by decide)⟩

/-- C5: with `length = 0` the scan visits nothing, every worker's
accumulator stays at positive infinity, and every group's output cell
receives positive infinity. -/
theorem c5_empty_input (buffer mask : List Nat) (W g nG N : Nat) :
    visitedIdx 0 W g = [] ∧ workerAcc buffer 0 W g = ⊤ ∧
      pir buffer mask 0 nG N = List.replicate nG ⊤ := by
  refine ⟨visitedIdx_nonpos 0 W g le_rfl, ?_, pir_nonpos buffer mask 0 nG N le_rfl⟩
  rw [workerAcc, scanFrom_nonpos buffer 0 W g ⊤ le_rfl]

/-- C8: every buffer index the scan visits lies in `[0, length)`, and in
every round of the tree reduction an active worker's two scratch indices
`i` and `i + offset` lie in `[0, N)`, with `2 * offset ≤ N`. -/
theorem c8_memory_safety :
    (∀ (len : Int) (W i j : Nat), j ∈ visitedIdx len W i →
        0 ≤ (j : Int) ∧ (j : Int) < len) ∧
    (∀ N o i : Nat, o ∈ offsets (N / 2) → i < o →
        i < N ∧ i + o < N ∧ 2 * o ≤ N) := by
  constructor
  · intro len W i j hj
    exact visitedIdx_lt_len len W i j hj
  · intro N o i ho hio
    have hb := mem_offsets_bounds (N / 2) o ho
    omega

/-- C8 witness: concrete instances of both bounds. -/
theorem c8_witness :
    ((0:Nat) ∈ visitedIdx ((5:Nat) : Int) 1 0 ∧
      (0 ≤ ((0:Nat) : Int) ∧ ((0:Nat) : Int) < ((5:Nat) : Int))) ∧
    ((1:Nat) ∈ offsets (2 / 2) ∧ (0:Nat) < 1 ∧
      ((0:Nat) < 2 ∧ 0 + 1 < 2 ∧ 2 * 1 ≤ 2)) := by
  have h1 : (0:Nat) ∈ visitedIdx ((5:Nat) : Int) 1 0 := by
    rw [visitedIdx, dif_pos (by constructor <;> norm_num)]
    exact List.mem_cons_self 0 _
  have h2 : (1:Nat) ∈ offsets (2 / 2) := by
    rw [show (2:Nat) / 2 = 1 from rfl, offsets_succ 1 one_ne_zero]
    exact List.mem_cons_self 1 _
  exact ⟨⟨h1, c8_memory_safety.1 ((5:Nat) : Int) 1 0 0 h1⟩,
    ⟨h2, by decide, c8_memory_safety.2 2 1 0 h2 (by decide)⟩⟩

/-- C9: the kernel never reads `mask` — two invocations differing only in
`mask` produce identical outputs (and the scratch computation
`groupScratch`/`reduceLoop` takes no mask input at all). -/
theorem c9_mask_unused (buffer m₁ m₂ : List Nat) (len : Int) (nG N : Nat) :
    pir buffer m₁ len nG N = pir buffer m₂ len nG N := rfl

/-- C10: any `length ≤ 0` (including negative values) behaves exactly like
`length = 0`: nothing is visited, accumulators stay at infinity, and the
output equals the empty-input output. -/
theorem c10_nonpositive_length (buffer mask : List Nat) (len : Int) (W g nG N : Nat)
    (h : len ≤ 0) :
    visitedIdx len W g = [] ∧ workerAcc buffer len W g = ⊤ ∧
      pir buffer mask len nG N = pir buffer mask 0 nG N := by
  refine ⟨visitedIdx_nonpos len W g h, ?_, ?_⟩
  · rw [workerAcc, scanFrom_nonpos buffer len W g ⊤ h]
  · rw [pir_nonpos buffer mask len nG N h, pir_nonpos buffer mask 0 nG N le_rfl]

/-- C10 witness: concrete instance with `length = -7`. -/
theorem c10_witness :
    (-7 : Int) ≤ 0 ∧
    (visitedIdx (-7) 1 0 = [] ∧ workerAcc [3] (-7) 1 0 = ⊤ ∧
      pir [3] [] (-7) 1 1 = pir [3] [] 0 1 1) :=
  ⟨by decide, c10_nonpositive_length [3] [] (-7) 1 0 1 1 (by decide)⟩

/-- C2: for a power-of-two group size `N = 2 ^ k`, (a) scratch slot `l`
holds exactly the minimum of the elements visited by the worker with local
index `l`; (b) for any pre-reduction scratch contents of length `N`,
`scratch[0]` after the reduction loop is the minimum of all `N`
accumulators, regardless of which slot held the minimum; (c) the group's
output cell equals that value. -/
theorem c2_phase_invariants (buffer mask : List Nat) (len : Int) (nG N k grp l : Nat)
    (hN : N = 2 ^ k) (hgrp : grp < nG) (hl : l < N) :
    (groupScratch buffer len nG N grp).getD l ⊤ =
        listMin ((visitedIdx len (nG * N) (grp * N + l)).map (readCell buffer)) ∧
    (∀ s : List Flt, s.length = N → (reduceLoop s (N / 2)).headD ⊤ = listMin s) ∧
    (pir buffer mask len nG N).getD grp ⊤ =
        listMin (groupScratch buffer len nG N grp) := by
  refine ⟨?_, ?_, ?_⟩
  · rw [groupScratch_getD buffer len nG N grp l hl, workerAcc_eq]
  · intro s hs
    subst hN
    exact reduceLoop_headD_pow2 k s hs
  · rw [pir_getD buffer mask len nG N grp hgrp,
      groupOutput_pow2 buffer len nG N k grp hN]

/-- C2 witness: concrete instance, one group of 2 workers on `[5, 3]`. -/
theorem c2_witness :
    ((2:Nat) = 2 ^ 1 ∧ (0:Nat) < 1 ∧ (0:Nat) < 2) ∧
    ((groupScratch [5, 3] 2 1 2 0).getD 0 ⊤ =
        listMin ((visitedIdx 2 (1 * 2) (0 * 2 + 0)).map (readCell [5, 3])) ∧
      (∀ s : List Flt, s.length = 2 → (reduceLoop s (2 / 2)).headD ⊤ = listMin s) ∧
      (pir [5, 3] [] 2 1 2).getD 0 ⊤ = listMin (groupScratch [5, 3] 2 1 2 0)) :=
  ⟨⟨by decide, by decide, by decide⟩,
    c2_phase_invariants [5, 3] [] 2 1 2 1 0 0 (by decide) (by decide) (by decide)⟩

/-- C6: for a non-power-of-two group size `N`, if every scratch slot the
halving reduction leaves unfolded (a slot outside `covered N`, the set of
slots whose value flows into slot 0) holds the identity value `⊤`, then
`scratch[0]` after the reduction loop still equals the minimum of the
group's `N` pre-reduction accumulators. -/
theorem c6_nonpow2_identity_tail (N : Nat) (s : List Flt)
    (hnp : ∀ k : Nat, N ≠ 2 ^ k) (hlen : s.length = N)
    (hseed : ∀ j, j < N → j ∉ covered N → s.getD j ⊤ = ⊤) :
    (reduceLoop s (N / 2)).headD ⊤ = listMin s := by
  rw [reduceLoop_headD_covered N s hlen]
  apply le_antisymm
  · apply le_listMin
    intro a ha
    rcases List.mem_iff_getElem.mp ha with ⟨j, hj, rfl⟩
    by_cases hc : j ∈ covered N
    · refine le_trans (Finset.inf_le hc) ?_
      rw [List.getD_eq_getElem s ⊤ hj]
    · have htop : s.getD j ⊤ = ⊤ := hseed j (by omega) hc
      rw [List.getD_eq_getElem s ⊤ hj] at htop
      rw [htop]
      exact le_top
  · apply Finset.le_inf
    intro j hjc
    by_cases hjl : j < s.length
    · rw [List.getD_eq_getElem s ⊤ hjl]
      exact listMin_le_of_mem (List.getElem_mem hjl)
    · rw [List.getD_eq_default s ⊤ (by omega)]
      exact le_top

/-- C6 witness: `N = 6` (not a power of two) with all slots seeded at the
identity. -/
theorem c6_witness :
    (∀ k : Nat, (6:Nat) ≠ 2 ^ k) ∧ (List.replicate 6 (⊤ : Flt)).length = 6 ∧
      (∀ j, j < 6 → j ∉ covered 6 → (List.replicate 6 (⊤ : Flt)).getD j ⊤ = ⊤) ∧
      (reduceLoop (List.replicate 6 (⊤ : Flt)) (6 / 2)).headD ⊤ =
        listMin (List.replicate 6 (⊤ : Flt)) := by
  have hnp : ∀ k : Nat, (6:Nat) ≠ 2 ^ k := by
    intro k h
    rcases k with _ | _ | _ | n
    · norm_num at h
    · norm_num at h
    · norm_num at h
    · have h8 : 2 ^ 3 ≤ 2 ^ (n + 3) := Nat.pow_le_pow_right (by norm_num) (by omega)
      norm_num at h8
      omega
  have hseed : ∀ j, j < 6 → j ∉ covered 6 →
      (List.replicate 6 (⊤ : Flt)).getD j ⊤ = ⊤ := by
    intro j _ _
    exact getD_top_of_all_top (fun a ha => List.eq_of_mem_replicate ha) j
  exact ⟨hnp, by simp, hseed,
    c6_nonpow2_identity_tail 6 _ hnp (by simp) hseed⟩

/-- C7 counterexample: for `N = 3` the reduction loop runs exactly one
round (`offset` takes the single value `1`), but `⌈log2 3⌉ = 2`, so the
claimed round count `⌈log2 N⌉` is wrong for non-powers of two. -/
theorem c7_counterexample : (offsets (3 / 2)).length ≠ Nat.clog 2 3 := by
  have h1 : (offsets (3 / 2)).length = 1 := by
    rw [show (3:Nat) / 2 = 1 from rfl, offsets_succ 1 one_ne_zero,
      show (1:Nat) / 2 = 0 from rfl, offsets_zero]
    rfl
  have h2 : Nat.clog 2 3 = 2 := by
    have ha : Nat.clog 2 3 = Nat.clog 2 2 + 1 := by
      rw [Nat.clog_of_two_le (by norm_num) (by norm_num)]
    have hb : Nat.clog 2 2 = Nat.clog 2 1 + 1 := by
      rw [Nat.clog_of_two_le (by norm_num) (by norm_num)]
    rw [ha, hb, Nat.clog_one_right]
  omega

/-- C7 amended: for every `N ≥ 1` the loop terminates after exactly
`⌊log2 N⌋` rounds (`⌈log2 N⌉` holds only for powers of two): the offsets
traversed are `N/2, N/4, …, 1` and the loop is their left fold. -/
theorem c7_round_count (N : Nat) (hN : 1 ≤ N) :
    (offsets (N / 2)).length = Nat.log 2 N ∧
      ∀ s : List Flt, reduceLoop s (N / 2) = (offsets (N / 2)).foldl reduceRound s := by
  refine ⟨rounds_eq_log N hN, ?_⟩
  intro s
  rw [reduceLoop]
  exact gLoop_eq_foldl cmin ⊤ (N / 2) s

/-- C7 witness: concrete instance `N = 4`. -/
theorem c7_witness :
    (1:Nat) ≤ 4 ∧
      ((offsets (4 / 2)).length = Nat.log 2 4 ∧
        ∀ s : List Flt, reduceLoop s (4 / 2) = (offsets (4 / 2)).foldl reduceRound s) :=
  ⟨by decide, c7_round_count 4 (by decide)⟩

/-- C1 counterexample: launch configuration of one group with the
non-power-of-two size 3 on input `[5, 5, 1]`: worker 2's accumulator
(holding the true minimum 1) is never folded into `scratch[0]`, so the
minimum over the outputs is 5, not the true minimum 1. -/
theorem c1_counterexample :
    listMin (pir [5, 5, 1] [] 3 1 3) ≠ bufMin [5, 5, 1] := by
  have hrange1 : List.range 1 = [0] := rfl
  have hrange3 : List.range 3 = [0, 1, 2] := rfl
  have hw0 : workerAcc [5, 5, 1] 3 3 0 = ((5:ℚ) : Flt) := by
    rw [workerAcc, scanFrom, dif_pos (by norm_num), scanFrom, dif_neg (by norm_num)]
    norm_num [cmin, readCell, u64ToF32, rne24]
  have hw1 : workerAcc [5, 5, 1] 3 3 1 = ((5:ℚ) : Flt) := by
    rw [workerAcc, scanFrom, dif_pos (by norm_num), scanFrom, dif_neg (by norm_num)]
    norm_num [cmin, readCell, u64ToF32, rne24]
  have hw2 : workerAcc [5, 5, 1] 3 3 2 = ((1:ℚ) : Flt) := by
    rw [workerAcc, scanFrom, dif_pos (by norm_num), scanFrom, dif_neg (by norm_num)]
    norm_num [cmin, readCell, u64ToF32, rne24]
  have hs : groupScratch [5, 5, 1] 3 1 3 0 =
      [((5:ℚ) : Flt), ((5:ℚ) : Flt), ((1:ℚ) : Flt)] := by
    rw [groupScratch, hrange3]
    simp only [List.map_cons, List.map_nil]
    norm_num
    exact ⟨hw0, hw1, hw2⟩
  have hred : reduceLoop [((5:ℚ) : Flt), ((5:ℚ) : Flt), ((1:ℚ) : Flt)] (3 / 2) =
      [((5:ℚ) : Flt), ((5:ℚ) : Flt), ((1:ℚ) : Flt)] := by
    rw [show (3:Nat) / 2 = 1 from rfl, reduceLoop, gLoop_succ cmin ⊤ _ 1 one_ne_zero,
      show (1:Nat) / 2 = 0 from rfl, gLoop_zero, gRound,
      show ([((5:ℚ) : Flt), ((5:ℚ) : Flt), ((1:ℚ) : Flt)] : List Flt).length = 3 from rfl,
      hrange3]
    simp only [List.map_cons, List.map_nil]
    norm_num [cmin, List.getD_cons_zero, List.getD_cons_succ]
  have h1 : pir [5, 5, 1] [] 3 1 3 = [((5:ℚ) : Flt)] := by
    rw [pir, hrange1]
    simp only [List.map_cons, List.map_nil]
    rw [groupOutput, hs, hred]
    rfl
  have h2 : bufMin [5, 5, 1] = ((1:ℚ) : Flt) := by
    rw [bufMin]
    norm_num [listMin, u64ToF32, rne24, min_eq_left le_top]
  rw [h1, h2]
  have h5 : listMin [((5:ℚ) : Flt)] = ((5:ℚ) : Flt) := by
    rw [listMin_cons, listMin_nil, min_eq_left le_top]
  rw [h5]
  intro h
  have := WithTop.coe_injective h
  norm_num at this

/-- C1 amended: for every input vector and every launch configuration
whose group size is a power of two (with at least one group), the minimum
over all emitted `output` cells equals the true minimum of the input
vector as the kernel interprets it. -/
theorem c1_min_over_outputs (buffer mask : List Nat) (nG N k : Nat)
    (hN : N = 2 ^ k) (hG : 1 ≤ nG) :
    listMin (pir buffer mask (buffer.length : Int) nG N) = bufMin buffer :=
  pir_listMin_pow2 buffer mask nG N k hN hG

/-- C1 witness: one group of 2 workers on `[5, 3]`. -/
theorem c1_witness :
    ((2:Nat) = 2 ^ 1 ∧ (1:Nat) ≤ 1) ∧
      listMin (pir [5, 3] [] (([5, 3] : List Nat).length : Int) 1 2) = bufMin [5, 3] :=
  ⟨⟨by decide, by decide⟩, c1_min_over_outputs [5, 3] [] 1 2 1 (by decide) (by decide)⟩

/-- C4 counterexample: at the cell value 1, the value the scan folds is
the numeric conversion `1.0` (via `u64ToF32`), while the bit-level
reinterpretation of the cell's low 32 bits is the denormal `2 ^ (-149)`,
so the claimed reinterpretation semantics does not match the code. -/
theorem c4_counterexample :
    some (readCell [1] 0) ≠ reinterpF32 (List.getD [1] 0 0 % 2 ^ 32) := by
  have h1 : readCell [1] 0 = ((1:ℚ) : Flt) := by
    norm_num [readCell, u64ToF32, rne24]
  have h2 : reinterpF32 (List.getD [1] 0 0 % 2 ^ 32) =
      some ((((2:ℚ) ^ (-(149:Int)) : ℚ)) : Flt) := by
    norm_num [reinterpF32]
  rw [h1, h2]
  intro h
  rw [Option.some_inj] at h
  have hq : (1:ℚ) = (2:ℚ) ^ (-(149:Int)) := WithTop.coe_injective h
  have h3 : ((2:ℚ) ^ (149:Nat)) * ((2:ℚ) ^ (-(149:Int))) = 1 := by
    rw [← zpow_natCast (2:ℚ) 149, ← zpow_add₀ (by norm_num : (2:ℚ) ≠ 0)]
    norm_num
  rw [← hq, mul_one] at h3
  norm_num at h3

/-- C4 amended: the value folded into the accumulator for each visited
cell is the numeric integer-to-float conversion `u64ToF32` of the cell's
value (round-to-nearest-even), not a bit-level reinterpretation. -/
theorem c4_numeric_conversion (buffer : List Nat) (len : Int) (W i : Nat) (acc : Flt)
    (hi : (i : Int) < len) (hW : 0 < W) :
    readCell buffer i = u64ToF32 (buffer.getD i 0) ∧
      scanFrom buffer len W i acc =
        scanFrom buffer len W (i + W) (cmin acc (u64ToF32 (buffer.getD i 0))) := by
  refine ⟨rfl, ?_⟩
  rw [scanFrom, dif_pos ⟨hi, hW⟩]
  rfl

/-- C4 witness: concrete scan step on `[7]`. -/
theorem c4_witness :
    (((0:Nat) : Int) < 1 ∧ (0:Nat) < 1) ∧
      (readCell [7] 0 = u64ToF32 (List.getD [7] 0 0) ∧
        scanFrom [7] 1 1 0 ⊤ =
          scanFrom [7] 1 1 (0 + 1) (cmin ⊤ (u64ToF32 (List.getD [7] 0 0)))) :=
  ⟨⟨by decide, by decide⟩, c4_numeric_conversion [7] 1 1 0 ⊤ (by decide) (by decide)⟩
